import Mathlib

/-!
# HappyCal time-slot engine: formal model and verification

This file embeds the time-slot model of the HappyCal repository in Lean 4 and
proves properties of it.

Conventions of the embedding:

* Wire tokens are strings; a string is modelled as its character list
  (`List Char`), matching JavaScript's view of a string as a sequence of
  UTF-16 units (all characters involved are ASCII).
* JavaScript numbers holding calendar components are modelled as `Nat`
  (day offsets that may be negative, as in `dayOfWeek - today.dayOfWeek`,
  are modelled as `Int`).
* Calendar dates are also represented by their serial day number (days since
  the proleptic epoch of the days-from-civil algorithm below); the injected
  "current date" of the expander and the event dates are day numbers.
  Consecutive dates map to consecutive day numbers, and day `885972` is
  2025-11-15, a Saturday, so day `n` falls on ISO weekday `(n + 2) % 7 + 1`
  (1=Monday .. 7=Sunday, Temporal's `dayOfWeek`) and has 0=Sunday weekday
  index `(n + 3) % 7`.
* The IANA timezone of an event is modelled as a fixed offset in minutes
  (UTC instant = local wall-clock minutes − offset); the Temporal
  `toZonedDateTime(...).withTimeZone('UTC')` conversion becomes subtraction
  of that offset.
* `while` loops of the source are modelled by structural recursion on an
  explicit fuel that equals the loop's iteration bound at entry; the
  fuel-exhausted branch coincides with the loop-guard-false branch, so the
  translation is exact and every definition evaluates by `decide`.

The codec (`serializeTime` / `deserializeTime`), the expander (`expandTimes`)
and the aggregator (`calculateAvailability`) are imported by the repository
from `../utils`, whose source is not part of the snapshot; they are modelled
from the specification, and their doc comments say so.  Everything else is
translated from the TypeScript sources, with the source file noted.
-/

namespace HappyCal

/-! ## Digit characters -/

/-- The character for a decimal digit (used by the zero-padded encoders). -/
def dchr (n : Nat) : Char :=
  if n = 0 then '0' else if n = 1 then '1' else if n = 2 then '2'
  else if n = 3 then '3' else if n = 4 then '4' else if n = 5 then '5'
  else if n = 6 then '6' else if n = 7 then '7' else if n = 8 then '8'
  else if n = 9 then '9' else '?'

/-- The value of a decimal digit character, `none` on a non-digit. -/
def dval (c : Char) : Option Nat :=
  if c = '0' then some 0 else if c = '1' then some 1 else if c = '2' then some 2
  else if c = '3' then some 3 else if c = '4' then some 4 else if c = '5' then some 5
  else if c = '6' then some 6 else if c = '7' then some 7 else if c = '8' then some 8
  else if c = '9' then some 9 else none

theorem dval_dchr {n : Nat} (h : n ≤ 9) : dval (dchr n) = some n := by
  interval_cases n <;> decide

theorem dchr_dval {c : Char} {n : Nat} (h : dval c = some n) : dchr n = c := by
  unfold dval at h
  split_ifs at h <;> try injection h with h
  all_goals (subst_vars; decide)

theorem dval_le9 {c : Char} {n : Nat} (h : dval c = some n) : n ≤ 9 := by
  unfold dval at h
  split_ifs at h <;> try injection h with h
  all_goals omega

/-! ## Time-slot codec

The codec lives in `src/utils/serializeTime.ts` / `deserializeTime`, which is
imported by `generateTimeSlots.ts` and `CreateMeetingScreen` but is not
present in the repository snapshot; the definitions below are modelled from
the specification (§4.1): two fixed-width UTC token shapes, `HHmm-DDMMYYYY`
(13 characters) and `HHmm-d` (6 characters), all fields zero-padded, decode
failing with `MalformedToken` on any string not matching either pattern, with
hour > 23, with a minute outside {0, 15, 30, 45}, or with an invalid
Gregorian calendar date.  The weekday digit convention is fixed to
0=Sunday .. 6=Saturday (the spec's §9 open question; the choice is applied
uniformly in this model). -/

/-- The typed decode failure of the codec (spec §7). -/
inductive CodecError where
  | malformedToken
deriving DecidableEq, Repr

/-- Calendar-date fields of a specific-date token. -/
structure DateFields where
  day : Nat
  month : Nat
  year : Nat
deriving DecidableEq, Repr

/-- The internal tagged representation of a slot token (spec §9: a tagged sum
type with encode/decode as the sole boundary to the wire format). -/
inductive Slot where
  | specific (hour minute : Nat) (date : DateFields)
  | weekday (hour minute : Nat) (wd : Nat)
deriving DecidableEq, Repr

/-- Minutes a slot may carry: quarter hours (spec §4.1). -/
def minuteOk (m : Nat) : Prop := m = 0 ∨ m = 15 ∨ m = 30 ∨ m = 45

instance (m : Nat) : Decidable (minuteOk m) :=
  inferInstanceAs (Decidable (_ ∨ _ ∨ _ ∨ _))

/-- Gregorian leap-year rule. -/
def isLeapYear (y : Nat) : Prop := (y % 4 = 0 ∧ y % 100 ≠ 0) ∨ y % 400 = 0

instance (y : Nat) : Decidable (isLeapYear y) :=
  inferInstanceAs (Decidable (_ ∨ _))

/-- Number of days in a Gregorian month. -/
def daysInMonth (m y : Nat) : Nat :=
  if m = 2 then (if isLeapYear y then 29 else 28)
  else if m = 4 ∨ m = 6 ∨ m = 9 ∨ m = 11 then 30
  else 31

/-- Validity of a slot's fields: hour 0..23, quarter-hour minute, a real
Gregorian calendar date with a 4-digit year for the specific variant, a
weekday index 0..6 for the weekday variant. -/
def validSlot : Slot → Prop
  | .specific h m d =>
      h ≤ 23 ∧ minuteOk m ∧ 1 ≤ d.month ∧ d.month ≤ 12 ∧ 1 ≤ d.day ∧
        d.day ≤ daysInMonth d.month d.year ∧ d.year ≤ 9999
  | .weekday h m w => h ≤ 23 ∧ minuteOk m ∧ w ≤ 6

instance : (s : Slot) → Decidable (validSlot s)
  | .specific _ _ _ => inferInstanceAs (Decidable (_ ∧ _))
  | .weekday _ _ _ => inferInstanceAs (Decidable (_ ∧ _))

/-- Wire encoding of a slot: `HHmm-DDMMYYYY` or `HHmm-d`, every numeric field
zero-padded to its fixed width (digits taken positionally, low to high). -/
def serializeSlot : Slot → List Char
  | .specific h m d =>
      [dchr (h / 10 % 10), dchr (h % 10), dchr (m / 10 % 10), dchr (m % 10), '-',
       dchr (d.day / 10 % 10), dchr (d.day % 10), dchr (d.month / 10 % 10), dchr (d.month % 10),
       dchr (d.year / 1000 % 10), dchr (d.year / 100 % 10), dchr (d.year / 10 % 10),
       dchr (d.year % 10)]
  | .weekday h m w =>
      [dchr (h / 10 % 10), dchr (h % 10), dchr (m / 10 % 10), dchr (m % 10), '-',
       dchr (w % 10)]

/-- The UTC field view of a zoned date-time after `.withTimeZone('UTC')`:
hour, minute, calendar date and weekday (0=Sunday .. 6=Saturday), all in
UTC. -/
structure DateTimeUTC where
  hour : Nat
  minute : Nat
  day : Nat
  month : Nat
  year : Nat
  dayOfWeek : Nat
deriving DecidableEq, Repr

/-- The slot a date-time encodes to under the `useSpecificDate` flag. -/
def slotOfDateTime (dt : DateTimeUTC) (useSpecificDate : Bool) : Slot :=
  if useSpecificDate then .specific dt.hour dt.minute ⟨dt.day, dt.month, dt.year⟩
  else .weekday dt.hour dt.minute dt.dayOfWeek

/-- Modelled from the spec: `serializeTime` (missing `src/utils/serializeTime.ts`).
Encode (§4.1): render the UTC hour/minute and, per the flag, either the UTC
calendar date (`HHmm-DDMMYYYY`) or the UTC weekday digit (`HHmm-d`). -/
def serializeTime (dt : DateTimeUTC) (useSpecificDate : Bool) : List Char :=
  serializeSlot (slotOfDateTime dt useSpecificDate)

/-- Parse two digit characters as a zero-padded 2-digit number. -/
def parse2 (a b : Char) : Option Nat :=
  match dval a, dval b with
  | some x, some y => some (10 * x + y)
  | _, _ => none

/-- Parse four digit characters as a zero-padded 4-digit number. -/
def parse4 (a b c d : Char) : Option Nat :=
  match dval a, dval b, dval c, dval d with
  | some x, some y, some z, some w => some (((x * 10 + y) * 10 + z) * 10 + w)
  | _, _, _, _ => none

/-- Modelled from the spec: `deserializeTime` (missing
`src/utils/serializeTime.ts` companion).  Decode (§4.1): accept exactly the
two fixed-width shapes, reject out-of-range components (hour > 23, minute not
a quarter hour, invalid Gregorian date, weekday digit > 6) with
`MalformedToken`. -/
def deserializeTime (s : List Char) : Except CodecError Slot :=
  match s with
  | [h1, h2, m1, m2, hy, d1, d2, n1, n2, y1, y2, y3, y4] =>
      if hy = '-' then
        match parse2 h1 h2, parse2 m1 m2, parse2 d1 d2, parse2 n1 n2, parse4 y1 y2 y3 y4 with
        | some hour, some minute, some day, some month, some year =>
            if hour ≤ 23 ∧ minuteOk minute ∧ 1 ≤ month ∧ month ≤ 12 ∧ 1 ≤ day ∧
                day ≤ daysInMonth month year then
              .ok (.specific hour minute ⟨day, month, year⟩)
            else .error .malformedToken
        | _, _, _, _, _ => .error .malformedToken
      else .error .malformedToken
  | [h1, h2, m1, m2, hy, w1] =>
      if hy = '-' then
        match parse2 h1 h2, parse2 m1 m2, dval w1 with
        | some hour, some minute, some w =>
            if hour ≤ 23 ∧ minuteOk minute ∧ w ≤ 6 then .ok (.weekday hour minute w)
            else .error .malformedToken
        | _, _, _ => .error .malformedToken
      else .error .malformedToken
  | _ => .error .malformedToken

theorem parse2_pad {n : Nat} (h : n ≤ 99) :
    parse2 (dchr (n / 10 % 10)) (dchr (n % 10)) = some n := by
  unfold parse2
  rw [dval_dchr (by omega), dval_dchr (by omega)]
  exact congrArg some (by omega)

theorem parse4_pad {n : Nat} (h : n ≤ 9999) :
    parse4 (dchr (n / 1000 % 10)) (dchr (n / 100 % 10)) (dchr (n / 10 % 10)) (dchr (n % 10)) =
      some n := by
  unfold parse4
  rw [dval_dchr (by omega), dval_dchr (by omega), dval_dchr (by omega), dval_dchr (by omega)]
  exact congrArg some (by omega)

theorem daysInMonth_le (m y : Nat) : daysInMonth m y ≤ 31 := by
  unfold daysInMonth; split_ifs <;> omega

theorem minuteOk_le {m : Nat} (h : minuteOk m) : m ≤ 45 := by
  rcases h with h | h | h | h <;> omega

/-- Encode-then-decode round trip at the slot level. -/
theorem deserialize_serializeSlot {s : Slot} (h : validSlot s) :
    deserializeTime (serializeSlot s) = .ok s := by
  cases s with
  | specific hr mi d =>
      obtain ⟨hh, hm, hmo1, hmo2, hd1, hd2, hy⟩ := h
      have hm45 := minuteOk_le hm
      have hd31 := hd2.trans (daysInMonth_le d.month d.year)
      show deserializeTime
        [dchr (hr / 10 % 10), dchr (hr % 10), dchr (mi / 10 % 10), dchr (mi % 10), '-',
         dchr (d.day / 10 % 10), dchr (d.day % 10), dchr (d.month / 10 % 10),
         dchr (d.month % 10), dchr (d.year / 1000 % 10), dchr (d.year / 100 % 10),
         dchr (d.year / 10 % 10), dchr (d.year % 10)] = .ok (.specific hr mi d)
      rw [deserializeTime]
      rw [if_pos rfl, parse2_pad (by omega), parse2_pad (by omega), parse2_pad (by omega),
        parse2_pad (by omega), parse4_pad hy]
      show (if hr ≤ 23 ∧ minuteOk mi ∧ 1 ≤ d.month ∧ d.month ≤ 12 ∧ 1 ≤ d.day ∧
          d.day ≤ daysInMonth d.month d.year then
          Except.ok (Slot.specific hr mi ⟨d.day, d.month, d.year⟩)
        else Except.error CodecError.malformedToken) = .ok (.specific hr mi d)
      rw [if_pos ⟨hh, hm, hmo1, hmo2, hd1, hd2⟩]
  | weekday hr mi w =>
      obtain ⟨hh, hm, hw⟩ := h
      have hm45 := minuteOk_le hm
      show deserializeTime
        [dchr (hr / 10 % 10), dchr (hr % 10), dchr (mi / 10 % 10), dchr (mi % 10), '-',
         dchr (w % 10)] = .ok (.weekday hr mi w)
      rw [deserializeTime]
      rw [if_pos rfl, parse2_pad (by omega), parse2_pad (by omega),
        dval_dchr (show w % 10 ≤ 9 by omega)]
      show (if hr ≤ 23 ∧ minuteOk mi ∧ w % 10 ≤ 6 then
          Except.ok (Slot.weekday hr mi (w % 10))
        else Except.error CodecError.malformedToken) = .ok (.weekday hr mi w)
      rw [Nat.mod_eq_of_lt (by omega), if_pos ⟨hh, hm, hw⟩]

theorem parse2_inv {a b : Char} {n : Nat} (h : parse2 a b = some n) :
    n ≤ 99 ∧ dchr (n / 10 % 10) = a ∧ dchr (n % 10) = b := by
  unfold parse2 at h
  split at h
  next x y ha hb =>
    obtain rfl : 10 * x + y = n := by injection h
    have hx := dval_le9 ha
    have hy := dval_le9 hb
    refine ⟨by omega, ?_, ?_⟩
    · rw [show (10 * x + y) / 10 % 10 = x by omega]; exact dchr_dval ha
    · rw [show (10 * x + y) % 10 = y by omega]; exact dchr_dval hb
  next => exact absurd h (by simp)

theorem parse4_inv {a b c d : Char} {n : Nat} (h : parse4 a b c d = some n) :
    n ≤ 9999 ∧ dchr (n / 1000 % 10) = a ∧ dchr (n / 100 % 10) = b ∧
      dchr (n / 10 % 10) = c ∧ dchr (n % 10) = d := by
  unfold parse4 at h
  split at h
  next x y z w ha hb hc hd =>
    obtain rfl : ((x * 10 + y) * 10 + z) * 10 + w = n := by injection h
    have hx := dval_le9 ha
    have hy := dval_le9 hb
    have hz := dval_le9 hc
    have hw := dval_le9 hd
    refine ⟨by omega, ?_, ?_, ?_, ?_⟩
    · rw [show (((x * 10 + y) * 10 + z) * 10 + w) / 1000 % 10 = x by omega]; exact dchr_dval ha
    · rw [show (((x * 10 + y) * 10 + z) * 10 + w) / 100 % 10 = y by omega]; exact dchr_dval hb
    · rw [show (((x * 10 + y) * 10 + z) * 10 + w) / 10 % 10 = z by omega]; exact dchr_dval hc
    · rw [show (((x * 10 + y) * 10 + z) * 10 + w) % 10 = w by omega]; exact dchr_dval hd
  next => exact absurd h (by simp)

/-- Decode-then-encode: a successful decode only happens on a valid slot's
exact wire image. -/
theorem deserialize_ok {s : List Char} {slot : Slot}
    (h : deserializeTime s = .ok slot) : validSlot slot ∧ serializeSlot slot = s := by
  unfold deserializeTime at h
  split at h
  · -- 13-character arm
    split at h
    · split at h
      next hour minute day month year hp1 hp2 hp3 hp4 hp5 =>
        split at h
        next hcond =>
          obtain rfl : Slot.specific hour minute ⟨day, month, year⟩ = slot := by injection h
          obtain ⟨hc1, hc2, hc3, hc4, hc5, hc6⟩ := hcond
          obtain ⟨hn1, ha1, hb1⟩ := parse2_inv hp1
          obtain ⟨hn2, ha2, hb2⟩ := parse2_inv hp2
          obtain ⟨hn3, ha3, hb3⟩ := parse2_inv hp3
          obtain ⟨hn4, ha4, hb4⟩ := parse2_inv hp4
          obtain ⟨hn5, hy1, hy2, hy3, hy4⟩ := parse4_inv hp5
          subst ha1 hb1 ha2 hb2 ha3 hb3 ha4 hb4 hy1 hy2 hy3 hy4
          refine ⟨⟨hc1, hc2, hc3, hc4, hc5, hc6, hn5⟩, ?_⟩
          simp_all [serializeSlot]
        next => exact absurd h (by simp)
      next => exact absurd h (by simp)
    · exact absurd h (by simp)
  · -- 6-character arm
    split at h
    · split at h
      next hour minute w hp1 hp2 hp3 =>
        split at h
        next hcond =>
          obtain rfl : Slot.weekday hour minute w = slot := by injection h
          obtain ⟨hc1, hc2, hc3⟩ := hcond
          obtain ⟨hn1, ha1, hb1⟩ := parse2_inv hp1
          obtain ⟨hn2, ha2, hb2⟩ := parse2_inv hp2
          have hw9 := dval_le9 hp3
          have hwc := dchr_dval hp3
          subst ha1 hb1 ha2 hb2
          refine ⟨⟨hc1, hc2, hc3⟩, ?_⟩
          simp_all [serializeSlot, Nat.mod_eq_of_lt (show w < 10 by omega)]
        next => exact absurd h (by simp)
      next => exact absurd h (by simp)
    · exact absurd h (by simp)
  · exact absurd h (by simp)

/-! ## Calendar arithmetic

Serial day numbers give the common instant space in which specific-date and
weekday tokens are merged.  The two conversions below are the standard
days-from-civil / civil-from-days algorithms, shifted by 400 years so that
all arithmetic stays in `Nat` for the representable years 0..9999. -/

/-- Serial day number of a Gregorian calendar date. -/
def dayNumber (y m d : Nat) : Nat :=
  let ys := if m ≤ 2 then y + 399 else y + 400
  let era := ys / 400
  let yoe := ys % 400
  let mp := (m + 9) % 12
  let doy := (153 * mp + 2) / 5 + (d - 1)
  let doe := yoe * 365 + yoe / 4 - yoe / 100 + doy
  era * 146097 + doe

/-- Gregorian calendar date of a serial day number (inverse of `dayNumber`). -/
def civilOfDays (n : Nat) : DateFields :=
  let era := n / 146097
  let doe := n % 146097
  let yoe := (doe - doe / 1460 + doe / 36524 - doe / 146096) / 365
  let y := yoe + era * 400
  let doy := doe - (365 * yoe + yoe / 4 - yoe / 100)
  let mp := (5 * doy + 2) / 153
  let d := doy - (153 * mp + 2) / 5 + 1
  let m := if mp < 10 then mp + 3 else mp - 9
  ⟨d, m, if m ≤ 2 then y - 399 else y - 400⟩

/-- 0=Sunday .. 6=Saturday weekday index of a serial day number. -/
def sundayIndex (n : Nat) : Nat := (n + 3) % 7

/-- Temporal's ISO `dayOfWeek` (1=Monday .. 7=Sunday) of a serial day
number. -/
def isoDayOfWeek (n : Nat) : Nat := (n + 2) % 7 + 1

/-! ## Time expander

`expandTimes` is imported by `EventViewScreen.tsx` and
`AvailabilityGridScreen.tsx` from `../utils`, which is not in the repository
snapshot; it is modelled from the specification (§4.2). -/

/-- An expanded instant: UTC minutes since the day-number epoch. -/
def quarterInstant (day h m : Nat) : Nat := day * 1440 + h * 60 + m

/-- Modelled from the spec (§4.2): the first occurrence of weekday `w`
(0=Sunday convention) on or after `today`, possibly `today` itself. -/
def nextOnOrAfter (today w : Nat) : Nat := today + (w + 7 - sundayIndex today) % 7

/-- The concrete instants one decoded slot contributes: a specific-date slot
decodes to exactly one instant; a weekday slot is projected to its next
occurrence plus `windowWeeks` further weekly occurrences (spec §4.2). -/
def slotInstants (today windowWeeks : Nat) : Slot → List Nat
  | .specific h m df => [quarterInstant (dayNumber df.year df.month df.day) h m]
  | .weekday h m w =>
      (List.range (windowWeeks + 1)).map fun k =>
        quarterInstant (nextOnOrAfter today w + 7 * k) h m

/-- Decode a token list, surfacing the first `MalformedToken` failure. -/
def decodeAll : List (List Char) → Except CodecError (List Slot)
  | [] => .ok []
  | t :: ts =>
      match deserializeTime t with
      | .error e => .error e
      | .ok s =>
          match decodeAll ts with
          | .error e => .error e
          | .ok ss => .ok (s :: ss)

/-- Modelled from the spec: `expandTimes` (missing `src/utils`).  Expansion
(§4.2): decode all tokens (propagating `MalformedToken`), project weekday
slots forward from the injected current date, merge, collapse exact duplicate
instants, and sort ascending. -/
def expandTimes (today windowWeeks : Nat) (times : List (List Char)) :
    Except CodecError (List Nat) :=
  match decodeAll times with
  | .error e => .error e
  | .ok slots =>
      .ok ((List.insertionSort (· ≤ ·) (slots.flatMap (slotInstants today windowWeeks))).dedup)

theorem expandTimes_ok {today ww : Nat} {ts : List (List Char)} {out : List Nat}
    (h : expandTimes today ww ts = .ok out) : out.Sorted (· < ·) := by
  unfold expandTimes at h
  split at h
  · exact absurd h (by simp)
  next slots heq =>
    obtain rfl : (List.insertionSort (· ≤ ·)
        (slots.flatMap (slotInstants today ww))).dedup = out := by injection h
    have hs : (List.insertionSort (· ≤ ·)
        (slots.flatMap (slotInstants today ww))).Sorted (· ≤ ·) :=
      List.sorted_insertionSort _ _
    have hsub := List.dedup_sublist
      (List.insertionSort (· ≤ ·) (slots.flatMap (slotInstants today ww)))
    exact List.Sorted.lt_of_le (List.Pairwise.sublist hsub hs) (List.nodup_dedup _)

theorem decodeAll_error {ts : List (List Char)} {t : List Char}
    (hmem : t ∈ ts) (hbad : deserializeTime t = .error .malformedToken) :
    decodeAll ts = .error .malformedToken := by
  induction ts with
  | nil => cases hmem
  | cons x xs ih =>
      rw [decodeAll]
      rcases List.mem_cons.mp hmem with rfl | hx
      · rw [hbad]
      · cases hdx : deserializeTime x with
        | error e => cases e; rfl
        | ok s => rw [ih hx]

theorem expandTimes_error {today ww : Nat} {ts : List (List Char)} {t : List Char}
    (hmem : t ∈ ts) (hbad : deserializeTime t = .error .malformedToken) :
    expandTimes today ww ts = .error .malformedToken := by
  unfold expandTimes
  rw [decodeAll_error hmem hbad]

/-! ## Heatmap coloring

Translated from `getHeatmapColor` in
`src/happycal_react/src/components/AvailabilityGridScreen.tsx` (lines
120-127).  The three CSS return values are modelled as the three
constructors of `HeatColor`; the computed opacity of the scaled color is
kept exactly, as a rational. -/

/-- The three colors `getHeatmapColor` can return: the selected color
`rgb(14, 165, 233)`, the flat baseline `rgba(14, 165, 233, 0.1)`, and
`rgba(14, 165, 233, o)` with a computed opacity `o`. -/
inductive HeatColor where
  | selected
  | flatBaseline
  | scaled (opacity : ℚ)
deriving DecidableEq

/-- `getHeatmapColor` of `AvailabilityGridScreen.tsx`: `min` and `max` are
the aggregated bounds the component closes over, `count` the slot's
availability count. -/
def getHeatmapColor (min max count : Nat) (isSelected : Bool) : HeatColor :=
  if isSelected then .selected
  else if max = min then .flatBaseline
  else .scaled (1/10 + ((count : ℚ) - (min : ℚ)) / ((max : ℚ) - (min : ℚ)) * (4/10))

/-! ## Availability aggregator

`calculateAvailability` is imported by `AvailabilityGridScreen.tsx` from
`../utils`, which is not in the repository snapshot; it is modelled from the
specification (§4.4) and from the shape its caller destructures
(`{ availabilities, min, max }`, each availability carrying `date` — the
canonical token — and `people`). -/

/-- A participant: a display name and the set of tokens they marked
available (spec §3). -/
structure Person where
  name : String
  availability : List (List Char)

/-- Per-instant aggregation result (spec §3): the instant's canonical token
(the `date` field read by `AvailabilityGridScreen`) and the ordered list of
names of the people available at it. -/
structure Availability where
  date : List Char
  people : List String
deriving DecidableEq

/-- The aggregate result destructured by `AvailabilityGridScreen.tsx`. -/
structure AvailabilityResult where
  availabilities : List Availability
  min : Nat
  max : Nat

/-- Minimum and maximum of a list of counts, both 0 for the empty list
(spec §4.4). -/
def minMaxOf : List Nat → Nat × Nat
  | [] => (0, 0)
  | c :: cs => (cs.foldl Nat.min c, cs.foldl Nat.max c)

/-- Modelled from the spec: `calculateAvailability` (missing `src/utils`).
Aggregation (§4.4): for each instant token, the ordered sublist of people
whose availability set contains it; `min`/`max` are the minimum and maximum
of the per-instant people counts, both 0 when there are no instants. -/
def calculateAvailability (times : List (List Char)) (people : List Person) :
    AvailabilityResult :=
  let avs := times.map fun t =>
    { date := t, people := (people.filter fun p => t ∈ p.availability).map Person.name }
  let mm := minMaxOf (avs.map fun a => a.people.length)
  { availabilities := avs, min := mm.1, max := mm.2 }

theorem foldl_min_le :
    ∀ {cs : List Nat} {c x : Nat}, x ∈ c :: cs → cs.foldl Nat.min c ≤ x := by
  intro cs
  induction cs with
  | nil =>
      intro c x hx
      simp only [List.foldl_nil]
      rw [List.mem_singleton] at hx
      omega
  | cons b bs ih =>
      intro c x hx
      simp only [List.foldl_cons]
      rcases List.mem_cons.mp hx with rfl | hx'
      · have h1 : bs.foldl Nat.min (Nat.min x b) ≤ Nat.min x b :=
          ih (List.mem_cons_self _ _)
        exact le_trans h1 (Nat.min_le_left _ _)
      · rcases List.mem_cons.mp hx' with rfl | hx''
        · have h1 : bs.foldl Nat.min (Nat.min c x) ≤ Nat.min c x :=
            ih (List.mem_cons_self _ _)
          exact le_trans h1 (Nat.min_le_right _ _)
        · exact ih (List.mem_cons_of_mem _ hx'')

theorem le_foldl_max :
    ∀ {cs : List Nat} {c x : Nat}, x ∈ c :: cs → x ≤ cs.foldl Nat.max c := by
  intro cs
  induction cs with
  | nil =>
      intro c x hx
      simp only [List.foldl_nil]
      rw [List.mem_singleton] at hx
      omega
  | cons b bs ih =>
      intro c x hx
      simp only [List.foldl_cons]
      rcases List.mem_cons.mp hx with rfl | hx'
      · have h1 : Nat.max x b ≤ bs.foldl Nat.max (Nat.max x b) :=
          ih (List.mem_cons_self _ _)
        exact le_trans (Nat.le_max_left _ _) h1
      · rcases List.mem_cons.mp hx' with rfl | hx''
        · have h1 : Nat.max c x ≤ bs.foldl Nat.max (Nat.max c x) :=
            ih (List.mem_cons_self _ _)
          exact le_trans (Nat.le_max_right _ _) h1
        · exact ih (List.mem_cons_of_mem _ hx'')

theorem foldl_min_mem : ∀ {cs : List Nat} {c : Nat}, cs.foldl Nat.min c ∈ c :: cs := by
  intro cs
  induction cs with
  | nil => intro c; exact List.mem_singleton.mpr rfl
  | cons b bs ih =>
      intro c
      simp only [List.foldl_cons]
      rcases List.mem_cons.mp (ih (c := Nat.min c b)) with hm | hm
      · rcases min_choice c b with hc | hc
        · rw [hm, show Nat.min c b = c from hc]; exact List.mem_cons_self _ _
        · rw [hm, show Nat.min c b = b from hc]
          exact List.mem_cons_of_mem _ (List.mem_cons_self _ _)
      · exact List.mem_cons_of_mem _ (List.mem_cons_of_mem _ hm)

theorem foldl_max_mem : ∀ {cs : List Nat} {c : Nat}, cs.foldl Nat.max c ∈ c :: cs := by
  intro cs
  induction cs with
  | nil => intro c; exact List.mem_singleton.mpr rfl
  | cons b bs ih =>
      intro c
      simp only [List.foldl_cons]
      rcases List.mem_cons.mp (ih (c := Nat.max c b)) with hm | hm
      · rcases max_choice c b with hc | hc
        · rw [hm, show Nat.max c b = c from hc]; exact List.mem_cons_self _ _
        · rw [hm, show Nat.max c b = b from hc]
          exact List.mem_cons_of_mem _ (List.mem_cons_self _ _)
      · exact List.mem_cons_of_mem _ (List.mem_cons_of_mem _ hm)

theorem minMaxOf_le {cs : List Nat} {x : Nat} (hx : x ∈ cs) :
    (minMaxOf cs).1 ≤ x ∧ x ≤ (minMaxOf cs).2 := by
  cases cs with
  | nil => cases hx
  | cons c cs => exact ⟨foldl_min_le hx, le_foldl_max hx⟩

theorem minMaxOf_mem {cs : List Nat} (h : cs ≠ []) :
    (minMaxOf cs).1 ∈ cs ∧ (minMaxOf cs).2 ∈ cs := by
  cases cs with
  | nil => exact absurd rfl h
  | cons c cs => exact ⟨foldl_min_mem, foldl_max_mem⟩

theorem minMaxOf_zero {cs : List Nat} (h : ∀ x ∈ cs, x = 0) (hne : cs ≠ []) :
    (minMaxOf cs).1 = 0 ∧ (minMaxOf cs).2 = 0 := by
  obtain ⟨h1, h2⟩ := minMaxOf_mem hne
  exact ⟨h _ h1, h _ h2⟩

/-! ## Slot generation

Translated from `src/happycal_react/src/utils/generateTimeSlots.ts` and from
`handleGenerate` of the CreateMeetingScreen component
(`src/unnamed/part_002`).  The `timeStr.split(' ')` / `time.split(':')`
tokenization of `parseTime` is represented structurally: a `TimeStr` carries
the numeric hour and minute and the period word. -/

/-- A time string such as `"9:00 AM"`, split into its parts. -/
structure TimeStr where
  hour : Nat
  minute : Nat
  period : String
deriving DecidableEq

/-- `parseTime` of `generateTimeSlots.ts` (duplicated verbatim inside
`handleGenerate`): 12-hour to 24-hour conversion by two sequential
conditional updates. -/
def parseTime (t : TimeStr) : Nat × Nat :=
  let hour24 := if t.period = "PM" ∧ t.hour ≠ 12 then t.hour + 12 else t.hour
  let hour24 := if t.period = "AM" ∧ t.hour = 12 then 0 else hour24
  (hour24, t.minute)

/-- The UTC instant (in minutes) of local wall-clock `(day, h:00)` under the
fixed-offset timezone model. -/
def utcInstantOfLocal (off : Int) (day : Int) (h : Nat) : Nat :=
  ((day * 1440 + h * 60 : Int) - off).toNat

/-- The UTC field view of an instant. -/
def dtOfInstant (inst : Nat) : DateTimeUTC :=
  let dn := inst / 1440
  let c := civilOfDays dn
  ⟨inst % 1440 / 60, inst % 60, c.day, c.month, c.year, sundayIndex dn⟩

/-- `plainDate.toZonedDateTime({timeZone, plainTime: h:00}).withTimeZone('UTC')`
under the fixed-offset timezone model. -/
def zonedToUTC (off : Int) (day : Int) (h : Nat) : DateTimeUTC :=
  dtOfInstant (utcInstantOfLocal off day h)

/-- The hour loop shared by `generateTimeSlots` and `handleGenerate`, with
the per-iteration emission abstracted:

`while (cur < end.hour || (cur === end.hour && start.minute === 0)) {`
emit; `cur++;`
`if (cur > end.hour || (cur === end.hour && end.minute === 0)) break }`.

Structural recursion on fuel; the loop is entered with fuel `eh + 1 - h`
(see `genLoop`), which is `0` exactly when the loop guard is initially
false and otherwise dominates the iteration count, so the fuel-exhausted
branch coincides with the guard-false branch and the translation is exact. -/
def genLoopAux {α : Type} (emit : Nat → α) (sm eh em : Nat) : Nat → Nat → List α
  | 0, _ => []
  | fuel + 1, h =>
      if h < eh ∨ (h = eh ∧ sm = 0) then
        emit h ::
          (if eh < h + 1 ∨ (h + 1 = eh ∧ em = 0) then []
           else genLoopAux emit sm eh em fuel (h + 1))
      else []

/-- The hour loop of `generateTimeSlots.ts` lines 40-53, started at hour `h`. -/
def genLoop {α : Type} (emit : Nat → α) (sm eh em h : Nat) : List α :=
  genLoopAux emit sm eh em (eh + 1 - h) h

/-- The successive values `currentHour` takes in the hour loop. -/
def hoursList (sm eh em h : Nat) : List Nat := genLoop id sm eh em h

theorem genLoopAux_eq_map {α : Type} (emit : Nat → α) (sm eh em : Nat) :
    ∀ fuel h, genLoopAux emit sm eh em fuel h =
      (genLoopAux id sm eh em fuel h).map emit := by
  intro fuel
  induction fuel with
  | zero => intro h; rfl
  | succ f ih =>
      intro h
      simp only [genLoopAux]
      by_cases h1 : h < eh ∨ (h = eh ∧ sm = 0)
      · rw [if_pos h1, if_pos h1]
        by_cases h2 : eh < h + 1 ∨ (h + 1 = eh ∧ em = 0)
        · rw [if_pos h2, if_pos h2]; rfl
        · rw [if_neg h2, if_neg h2, ih]; rfl
      · rw [if_neg h1, if_neg h1]; rfl

theorem genLoop_eq_map {α : Type} (emit : Nat → α) (sm eh em h : Nat) :
    genLoop emit sm eh em h = (hoursList sm eh em h).map emit :=
  genLoopAux_eq_map emit sm eh em _ h

/-- `generateTimeSlots` of
`src/happycal_react/src/utils/generateTimeSlots.ts`: for each date in input
order, hourly slots over the parsed time window, each slot the specific-date
serialization of the UTC conversion of local `(date, hour:00)`. -/
def generateTimeSlots (dates : List Nat) (startTime endTime : TimeStr) (off : Int) :
    List (List Char) :=
  let s := parseTime startTime
  let e := parseTime endTime
  dates.flatMap fun date =>
    genLoop (fun h => serializeTime (zonedToUTC off (date : Int) h) true) s.2 e.1 e.2 s.1

/-- `if (!timeSlots.includes(serialized)) timeSlots.push(serialized)` of
`handleGenerate`. -/
def pushUnique (acc : List (List Char)) (t : List Char) : List (List Char) :=
  if t ∈ acc then acc else acc ++ [t]

theorem pushUnique_nodup {acc : List (List Char)} {t : List Char} (h : acc.Nodup) :
    (pushUnique acc t).Nodup := by
  unfold pushUnique
  split
  · exact h
  next hmem =>
    refine List.Nodup.append h (List.nodup_singleton t) ?_
    intro a ha hb
    rw [List.mem_singleton] at hb
    subst hb
    exact hmem ha

theorem foldl_pushUnique_nodup (l : List (List Char)) :
    ∀ {acc : List (List Char)}, acc.Nodup → (l.foldl pushUnique acc).Nodup := by
  induction l with
  | nil => intro acc h; exact h
  | cons x xs ih => intro acc h; exact ih (pushUnique_nodup h)

/-- The accumulator form of the hour loop used by `handleGenerate`
(`src/unnamed/part_002` lines 89-137): same guards as `genLoopAux`, the
emission pushing into the shared `timeSlots` list. -/
def recLoopAux (emitHour : List (List Char) → Nat → List (List Char)) (sm eh em : Nat) :
    Nat → Nat → List (List Char) → List (List Char)
  | 0, _, acc => acc
  | fuel + 1, h, acc =>
      if h < eh ∨ (h = eh ∧ sm = 0) then
        if eh < h + 1 ∨ (h + 1 = eh ∧ em = 0) then emitHour acc h
        else recLoopAux emitHour sm eh em fuel (h + 1) (emitHour acc h)
      else acc

/-- `handleGenerate`'s hour loop started at hour `h`. -/
def recLoop (emitHour : List (List Char) → Nat → List (List Char)) (sm eh em h : Nat)
    (acc : List (List Char)) : List (List Char) :=
  recLoopAux emitHour sm eh em (eh + 1 - h) h acc

theorem recLoopAux_eq_foldl (f : List (List Char) → Nat → List (List Char))
    (sm eh em : Nat) :
    ∀ fuel h acc, recLoopAux f sm eh em fuel h acc =
      (genLoopAux id sm eh em fuel h).foldl f acc := by
  intro fuel
  induction fuel with
  | zero => intro h acc; rfl
  | succ fl ih =>
      intro h acc
      simp only [recLoopAux, genLoopAux]
      by_cases h1 : h < eh ∨ (h = eh ∧ sm = 0)
      · rw [if_pos h1, if_pos h1]
        by_cases h2 : eh < h + 1 ∨ (h + 1 = eh ∧ em = 0)
        · rw [if_pos h2, if_pos h2]; rfl
        · rw [if_neg h2, if_neg h2, ih]; rfl
      · rw [if_neg h1, if_neg h1]; rfl

theorem recLoop_eq_foldl (f : List (List Char) → Nat → List (List Char))
    (sm eh em h : Nat) (acc : List (List Char)) :
    recLoop f sm eh em h acc = (hoursList sm eh em h).foldl f acc :=
  recLoopAux_eq_foldl f sm eh em _ h acc

/-- Recurrence frequency of `CreateMeetingScreen` (`src/unnamed/part_002`). -/
inductive Frequency where
  | weekly
  | biweekly
deriving DecidableEq

/-- The day reached by `handleGenerate`'s projection arithmetic
(`const dayDelta = dayOfWeek - today.dayOfWeek;`
`const targetDate = today.add({ days: dayDelta })`): `d` comes from the
selection UI where Sunday is 0 (`part_002` line 415), `today.dayOfWeek` is
Temporal's ISO weekday (1=Monday .. 7=Sunday). -/
def targetDayInt (today d : Nat) : Int :=
  (today : Int) + ((d : Int) - (isoDayOfWeek today : Int))

/-- Weekly per-hour emission of `handleGenerate` (lines 96-110): one weekday
token (`serializeTime(zonedDateTime, false)`) pushed if not already
present. -/
def weeklyEmit (off : Int) (today d : Nat) (acc : List (List Char)) (h : Nat) :
    List (List Char) :=
  pushUnique acc (serializeTime (zonedToUTC off (targetDayInt today d) h) false)

/-- The biweekly inner loop of `handleGenerate` (lines 111-129):
`for (let weekOffset = 0; weekOffset < 12; weekOffset += 2)`, pushing a
specific-date token per offset if not already present.  Structural fuel `12`
dominates the 6 iterations. -/
def biweekAux (tok : Nat → List Char) : Nat → Nat → List (List Char) → List (List Char)
  | 0, _, acc => acc
  | fuel + 1, woff, acc =>
      if woff < 12 then biweekAux tok fuel (woff + 2) (pushUnique acc (tok woff)) else acc

/-- Biweekly per-hour emission of `handleGenerate`: tokens at
`today.add({ days: dayDelta + weekOffset })`. -/
def biweeklyEmit (off : Int) (today d : Nat) (acc : List (List Char)) (h : Nat) :
    List (List Char) :=
  biweekAux (fun woff => serializeTime (zonedToUTC off (targetDayInt today d + woff) h) true)
    12 0 acc

/-- The recurring branch of `handleGenerate` (`src/unnamed/part_002` lines
70-139): `selectedWeekdays.forEach(dayOfWeek => ...)` with the hour loop in
each iteration, all pushing into one shared string-deduplicated `timeSlots`
list.  The current date, which the source reads from
`Temporal.Now.plainDateISO()` inside the loop, is the `today` parameter of
the model. -/
def handleGenerateRecurring (freq : Frequency) (off : Int) (today : Nat)
    (weekdays : List Nat) (startTime endTime : TimeStr) : List (List Char) :=
  let s := parseTime startTime
  let e := parseTime endTime
  weekdays.foldl (fun acc d =>
    recLoop (match freq with
      | .weekly => weeklyEmit off today d
      | .biweekly => biweeklyEmit off today d) s.2 e.1 e.2 s.1 acc) []

theorem biweekAux_unroll (tok : Nat → List Char) (acc : List (List Char)) :
    biweekAux tok 12 0 acc =
      (([0, 2, 4, 6, 8, 10] : List Nat).map tok).foldl pushUnique acc := rfl

theorem foldl_foldl_flatMap {α β : Type} (f : List β → β → List β)
    (g : α → List β) :
    ∀ (l : List α) (init : List β),
      l.foldl (fun acc a => (g a).foldl f acc) init = (l.flatMap g).foldl f init := by
  intro l
  induction l with
  | nil => intro init; rfl
  | cons x xs ih =>
      intro init
      simp only [List.foldl_cons, List.flatMap_cons, List.foldl_append, ih]

theorem hoursList_of_gt {eh h : Nat} (hlt : eh < h) : hoursList 0 eh 0 h = [] := by
  unfold hoursList genLoop
  rw [show eh + 1 - h = 0 by omega, genLoopAux]

theorem hoursList_self (eh : Nat) : hoursList 0 eh 0 eh = [eh] := by
  unfold hoursList genLoop
  rw [show eh + 1 - eh = 0 + 1 by omega, genLoopAux]
  split_ifs with h1 h2
  · rfl
  · omega
  · omega

theorem hoursList_of_lt_aux :
    ∀ (k eh h : Nat), h < eh → eh - h = k + 1 →
      hoursList 0 eh 0 h = List.range' h (k + 1) := by
  intro k
  induction k with
  | zero =>
      intro eh h hlt hk
      unfold hoursList genLoop
      rw [show eh + 1 - h = 1 + 1 by omega, genLoopAux]
      split_ifs with h1 h2
      · rfl
      · omega
      · omega
  | succ k ih =>
      intro eh h hlt hk
      unfold hoursList genLoop
      rw [show eh + 1 - h = (k + 2) + 1 by omega, genLoopAux]
      split_ifs with h1 h2
      · omega
      · have ih2 := ih eh (h + 1) (by omega) (by omega)
        unfold hoursList genLoop at ih2
        rw [show eh + 1 - (h + 1) = k + 2 by omega] at ih2
        rw [ih2]
        rfl
      · omega

theorem hoursList_of_lt {eh h : Nat} (hlt : h < eh) :
    hoursList 0 eh 0 h = List.range' h (eh - h) := by
  have := hoursList_of_lt_aux (eh - h - 1) eh h hlt (by omega)
  rwa [show eh - h - 1 + 1 = eh - h by omega] at this

/-! ## The claims -/

/-- Claim C1: for every valid slot (hour 0-23, minute in {0, 15, 30, 45},
and for the specific-date variant a valid Gregorian calendar date),
decode(encode(slot, timezone, useSpecificDate)) reconstructs exactly the
same hour, minute, and date/weekday fields, and encode never produces a
string that decode rejects with MalformedToken. -/
theorem claim_C1_codec_roundtrip (dt : DateTimeUTC) (flag : Bool)
    (h : validSlot (slotOfDateTime dt flag)) :
    deserializeTime (serializeTime dt flag) = .ok (slotOfDateTime dt flag) :=
  deserialize_serializeSlot h

theorem claim_C1_codec_roundtrip_witness :
    (validSlot (slotOfDateTime ⟨9, 0, 15, 11, 2025, 6⟩ true) ∧
      deserializeTime (serializeTime ⟨9, 0, 15, 11, 2025, 6⟩ true) =
        .ok (slotOfDateTime ⟨9, 0, 15, 11, 2025, 6⟩ true)) ∧
    (validSlot (slotOfDateTime ⟨17, 30, 15, 11, 2025, 6⟩ false) ∧
      deserializeTime (serializeTime ⟨17, 30, 15, 11, 2025, 6⟩ false) =
        .ok (slotOfDateTime ⟨17, 30, 15, 11, 2025, 6⟩ false)) :=
  ⟨⟨by decide, claim_C1_codec_roundtrip ⟨9, 0, 15, 11, 2025, 6⟩ true (by decide)⟩,
   ⟨by decide, claim_C1_codec_roundtrip ⟨17, 30, 15, 11, 2025, 6⟩ false (by decide)⟩⟩

/-- Claim C2: every SlotToken produced or consumed by the system is exactly
one of two zero-padded UTC shapes — a 13-character specific-date token
HHmm-DDMMYYYY or a 6-character weekday token HHmm-d — so string length alone
determines the variant: encode always emits length 13 (specific) or 6
(weekday), the two images never coincide, decode only accepts strings of
length 13 or 6, and every token `generateTimeSlots` emits has length 13. -/
theorem claim_C2_token_shapes :
    (∀ (dt : DateTimeUTC) (flag : Bool),
        (serializeTime dt flag).length = if flag then 13 else 6) ∧
    (∀ dt dt' : DateTimeUTC, serializeTime dt true ≠ serializeTime dt' false) ∧
    (∀ (s : List Char) (slot : Slot), deserializeTime s = .ok slot →
        s.length = 13 ∨ s.length = 6) ∧
    (∀ (dates : List Nat) (st en : TimeStr) (off : Int) (t : List Char),
        t ∈ generateTimeSlots dates st en off → t.length = 13) := by
  refine ⟨?_, ?_, ?_, ?_⟩
  · intro dt flag
    cases flag <;> rfl
  · intro dt dt' heq
    have hlen := congrArg List.length heq
    have h13 : (serializeTime dt true).length = 13 := rfl
    have h6 : (serializeTime dt' false).length = 6 := rfl
    rw [h13, h6] at hlen
    exact absurd hlen (by decide)
  · intro s slot h
    have hser := (deserialize_ok h).2
    rw [← hser]
    cases slot with
    | specific _ _ _ => left; rfl
    | weekday _ _ _ => right; rfl
  · intro dates st en off t ht
    simp only [generateTimeSlots] at ht
    obtain ⟨date, _, ht⟩ := List.mem_flatMap.mp ht
    rw [genLoop_eq_map] at ht
    obtain ⟨h, _, rfl⟩ := List.mem_map.mp ht
    rfl

theorem claim_C2_token_shapes_witness :
    ("0900-15112025".data.length = 13 ∨ "0900-15112025".data.length = 6) ∧
      "0900-15112025".data.length = 13 :=
  ⟨claim_C2_token_shapes.2.2.1 "0900-15112025".data
      (.specific 9 0 ⟨15, 11, 2025⟩) (by rfl),
   claim_C2_token_shapes.2.2.2 [885972] ⟨9, 0, "AM"⟩ ⟨10, 0, "AM"⟩ 0
      "0900-15112025".data (by decide)⟩

/-- Claim C3: for every input token list, a successful expansion is sorted
strictly ascending in instant time and contains no duplicate instants
(deduplication happens in instant space, so a weekday projection that hits a
specific-date token's instant collapses with it), and expansion of the empty
list is the empty list, not an error. -/
theorem claim_C3_expand_sorted_dedup :
    (∀ (today ww : Nat) (ts : List (List Char)) (out : List Nat),
        expandTimes today ww ts = .ok out → out.Sorted (· < ·) ∧ out.Nodup) ∧
    (∀ today ww : Nat, expandTimes today ww [] = .ok []) := by
  constructor
  · intro today ww ts out h
    have hs := expandTimes_ok h
    exact ⟨hs, List.Pairwise.imp ne_of_lt hs⟩
  · intro today ww
    rfl

theorem claim_C3_expand_sorted_dedup_witness :
    expandTimes 885969 2 ["0900-15112025".data, "0900-6".data] =
        .ok [1275800220, 1275810300, 1275820380] ∧
      ([1275800220, 1275810300, 1275820380] : List Nat).Sorted (· < ·) ∧
      ([1275800220, 1275810300, 1275820380] : List Nat).Nodup :=
  ⟨by rfl, claim_C3_expand_sorted_dedup.1 885969 2
    ["0900-15112025".data, "0900-6".data] _ (by rfl)⟩

/-- Claim C4 (code bug): the claim says the current date is an explicit
parameter of weekday expansion, but `handleGenerate`
(`src/unnamed/part_002` lines 96-119) reads `Temporal.Now.plainDateISO()`
internally and `EventViewScreen.tsx` calls `expandTimes(event.times)` with
no current-date argument.  Evaluating the embedded recurring generation at
identical external inputs but the two internally-read current dates
2025-11-12 (day 885969) and 2025-11-19 (day 885976) yields different
outputs. -/
theorem claim_C4_clock_dependence :
    handleGenerateRecurring .biweekly 0 885969 [1] ⟨9, 0, "AM"⟩ ⟨9, 0, "AM"⟩ ≠
      handleGenerateRecurring .biweekly 0 885976 [1] ⟨9, 0, "AM"⟩ ⟨9, 0, "AM"⟩ := by
  decide

/-- Claim C5 counterexample: the weekday-index conventions are mixed, not
uniform.  On Monday 2025-11-17 (day 885974, ISO dayOfWeek 1) with UI-selected
weekday 0 (Sunday, per the selection grid and the settings store), the
projection `today.add({days: dayOfWeek - today.dayOfWeek})` of
`handleGenerate` reaches day 885973 — the previous day, in the past — while
the uniform 0=Sunday next-occurrence projection used by the expander reaches
day 885980. -/
theorem claim_C5_counterexample :
    isoDayOfWeek 885974 = 1 ∧ sundayIndex 885974 = 1 ∧
      targetDayInt 885974 0 = 885973 ∧ nextOnOrAfter 885974 0 = 885980 ∧
      targetDayInt 885974 0 ≠ ((nextOnOrAfter 885974 0 : Nat) : Int) ∧
      targetDayInt 885974 0 < (885974 : Int) := by
  decide

/-- Claim C5 amended: the selection UI uses 0=Sunday..6=Saturday while the
projection arithmetic subtracts Temporal's ISO dayOfWeek (1=Monday..7=Sunday)
directly.  The two conventions agree modulo 7, so the projected day still
falls on the selected weekday `d` (in the 0=Sunday convention), but it is
the occurrence of that weekday inside the current ISO week rather than the
next occurrence on or after the current date — for a Sunday selection it is
always strictly in the past. -/
theorem claim_C5_amended (today d : Nat) (hd : d ≤ 6) (ht : 7 ≤ today) :
    sundayIndex (targetDayInt today d).toNat = d ∧
      0 ≤ targetDayInt today d ∧
      (d = 0 → targetDayInt today d < (today : Int)) := by
  unfold targetDayInt isoDayOfWeek sundayIndex
  omega

theorem claim_C5_amended_witness :
    sundayIndex (targetDayInt 885974 0).toNat = 0 ∧
      0 ≤ targetDayInt 885974 0 ∧
      (0 = 0 → targetDayInt 885974 0 < (885974 : Int)) :=
  claim_C5_amended 885974 0 (by decide) (by decide)

/-- Claim C6: for every instant list and people list, aggregate returns
exactly one per-instant entry per input instant, keyed by the instant in
input order (so distinct instants give distinct entries); min and max equal
the minimum and maximum of the per-instant counts, so min ≤ count ≤ max for
every entry and both bounds are attained; and with no instants or no people
both bounds are 0 and every count is 0, with no error. -/
theorem claim_C6_aggregate (times : List (List Char)) (people : List Person) :
    ((calculateAvailability times people).availabilities.map Availability.date = times) ∧
    (∀ a ∈ (calculateAvailability times people).availabilities,
        (calculateAvailability times people).min ≤ a.people.length ∧
          a.people.length ≤ (calculateAvailability times people).max) ∧
    (times ≠ [] →
        (∃ a ∈ (calculateAvailability times people).availabilities,
            a.people.length = (calculateAvailability times people).min) ∧
        (∃ a ∈ (calculateAvailability times people).availabilities,
            a.people.length = (calculateAvailability times people).max)) ∧
    (times = [] → (calculateAvailability times people).min = 0 ∧
        (calculateAvailability times people).max = 0) ∧
    (people = [] → (calculateAvailability times people).min = 0 ∧
        (calculateAvailability times people).max = 0 ∧
        ∀ a ∈ (calculateAvailability times people).availabilities,
          a.people.length = 0) := by
  refine ⟨?_, ?_, ?_, ?_, ?_⟩
  · simp only [calculateAvailability, List.map_map]
    exact List.map_id times
  · intro a ha
    exact minMaxOf_le (List.mem_map_of_mem _ ha)
  · intro hne
    have hc : ((calculateAvailability times people).availabilities.map
        fun a => a.people.length) ≠ [] := by
      simp only [calculateAvailability]
      simpa using hne
    obtain ⟨hmin, hmax⟩ := minMaxOf_mem hc
    constructor
    · obtain ⟨a, ha, hlen⟩ := List.mem_map.mp hmin
      exact ⟨a, ha, hlen⟩
    · obtain ⟨a, ha, hlen⟩ := List.mem_map.mp hmax
      exact ⟨a, ha, hlen⟩
  · intro h
    subst h
    exact ⟨rfl, rfl⟩
  · intro h
    subst h
    have hall : ∀ a ∈ (calculateAvailability times []).availabilities,
        a.people.length = 0 := by
      intro a ha
      obtain ⟨t, _, rfl⟩ := List.mem_map.mp ha
      rfl
    cases times with
    | nil => exact ⟨rfl, rfl, hall⟩
    | cons t ts =>
        have hzero : ∀ x ∈ ((calculateAvailability (t :: ts) []).availabilities.map
            fun a => a.people.length), x = 0 := by
          intro x hx
          obtain ⟨a, ha, rfl⟩ := List.mem_map.mp hx
          exact hall a ha
        have hne : ((calculateAvailability (t :: ts) []).availabilities.map
            fun a => a.people.length) ≠ [] := by
          simp [calculateAvailability]
        obtain ⟨h1, h2⟩ := minMaxOf_zero hzero hne
        exact ⟨h1, h2, hall⟩

theorem claim_C6_aggregate_witness :
    ((calculateAvailability ["0900-15112025".data, "1700-15112025".data]
        [⟨"A", ["0900-15112025".data]⟩,
         ⟨"B", ["0900-15112025".data, "1700-15112025".data]⟩]).min ≤ 2 ∧
      2 ≤ (calculateAvailability ["0900-15112025".data, "1700-15112025".data]
        [⟨"A", ["0900-15112025".data]⟩,
         ⟨"B", ["0900-15112025".data, "1700-15112025".data]⟩]).max) ∧
    ((calculateAvailability ([] : List (List Char))
        [⟨"A", ["0900-15112025".data]⟩]).min = 0 ∧
      (calculateAvailability ([] : List (List Char))
        [⟨"A", ["0900-15112025".data]⟩]).max = 0) ∧
    ((calculateAvailability ["0900-15112025".data] ([] : List Person)).min = 0 ∧
      (calculateAvailability ["0900-15112025".data] ([] : List Person)).max = 0 ∧
      ∀ a ∈ (calculateAvailability ["0900-15112025".data]
          ([] : List Person)).availabilities, a.people.length = 0) :=
  ⟨(claim_C6_aggregate ["0900-15112025".data, "1700-15112025".data]
      [⟨"A", ["0900-15112025".data]⟩,
       ⟨"B", ["0900-15112025".data, "1700-15112025".data]⟩]).2.1
      ⟨"0900-15112025".data, ["A", "B"]⟩ (by decide),
   (claim_C6_aggregate ([] : List (List Char))
      [⟨"A", ["0900-15112025".data]⟩]).2.2.2.1 rfl,
   (claim_C6_aggregate ["0900-15112025".data] ([] : List Person)).2.2.2.2 rfl⟩

/-- Claim C7: when the aggregated min equals max, `getHeatmapColor` returns
the fixed flat baseline color without reaching the normalization branch; the
division (count − min)/(max − min) occurs only in the branch where max ≠ min,
where its denominator is nonzero, so division by zero is unreachable. -/
theorem claim_C7_heatmap_flat_on_degenerate :
    (∀ mn mx count : Nat, mx = mn →
        getHeatmapColor mn mx count false = .flatBaseline) ∧
    (∀ (mn mx count : Nat) (sel : Bool) (o : ℚ),
        getHeatmapColor mn mx count sel = .scaled o →
          mx ≠ mn ∧ ((mx : ℚ) - (mn : ℚ)) ≠ 0 ∧
            o = 1/10 + ((count : ℚ) - (mn : ℚ)) / ((mx : ℚ) - (mn : ℚ)) * (4/10)) := by
  constructor
  · intro mn mx count h
    simp [getHeatmapColor, h]
  · intro mn mx count sel o h
    unfold getHeatmapColor at h
    split_ifs at h with h1 h2
    have ho : o = 1/10 + ((count : ℚ) - (mn : ℚ)) / ((mx : ℚ) - (mn : ℚ)) * (4/10) := by
      injection h with h
      exact h.symm
    refine ⟨h2, ?_, ho⟩
    have hcast : (mx : ℚ) ≠ (mn : ℚ) := by exact_mod_cast h2
    exact sub_ne_zero.mpr hcast

theorem claim_C7_heatmap_flat_on_degenerate_witness :
    getHeatmapColor 3 3 5 false = .flatBaseline ∧
      (3 ≠ 1 ∧ ((3 : ℚ) - (1 : ℚ)) ≠ 0 ∧
        (1/10 + ((2 : ℚ) - (1 : ℚ)) / ((3 : ℚ) - (1 : ℚ)) * (4/10)) =
          1/10 + ((2 : ℚ) - (1 : ℚ)) / ((3 : ℚ) - (1 : ℚ)) * (4/10)) :=
  ⟨claim_C7_heatmap_flat_on_degenerate.1 3 3 5 rfl,
   claim_C7_heatmap_flat_on_degenerate.2 1 3 2 false _ rfl⟩

/-- Claim C8: decode accepts a string only if it is the exact wire image of
a valid slot — so any string matching neither fixed-width pattern or with
out-of-range components (hour > 23, minute not a permitted quarter hour, an
invalid Gregorian date) fails with the typed MalformedToken — and an
expansion that encounters a token on which decode fails surfaces the
failure to the caller instead of skipping it. -/
theorem claim_C8_malformed_propagates :
    (∀ (s : List Char) (slot : Slot), deserializeTime s = .ok slot →
        validSlot slot ∧ serializeSlot slot = s) ∧
    (∀ (today ww : Nat) (ts : List (List Char)) (t : List Char), t ∈ ts →
        deserializeTime t = .error .malformedToken →
          expandTimes today ww ts = .error .malformedToken) :=
  ⟨fun _ _ h => deserialize_ok h,
   fun _ _ _ _ hmem hbad => expandTimes_error hmem hbad⟩

theorem claim_C8_malformed_propagates_witness :
    expandTimes 885969 2 ["25a0-15112025".data] = .error .malformedToken :=
  claim_C8_malformed_propagates.2 885969 2 ["25a0-15112025".data]
    "25a0-15112025".data (by decide) (by rfl)

/-- Claim C9: for whole-hour start/end times, `generateTimeSlots` emits, for
each input date in input order, exactly one specific-date token per hour —
the UTC serialization of local (date, hour:00) under the given timezone —
where the hours run from the start hour inclusive to the end hour exclusive;
when the start hour equals the end hour exactly one token per date is
emitted, and when the start hour exceeds the end hour none are. -/
theorem claim_C9_generateTimeSlots (dates : List Nat) (st en : TimeStr)
    (off : Int) (sh eh : Nat) (hst : parseTime st = (sh, 0))
    (hen : parseTime en = (eh, 0)) :
    (generateTimeSlots dates st en off =
      dates.flatMap fun date =>
        (hoursList 0 eh 0 sh).map fun h =>
          serializeTime (zonedToUTC off (date : Int) h) true) ∧
    (sh < eh → hoursList 0 eh 0 sh = List.range' sh (eh - sh)) ∧
    (sh = eh → hoursList 0 eh 0 sh = [sh]) ∧
    (eh < sh → hoursList 0 eh 0 sh = []) := by
  refine ⟨?_, fun hlt => hoursList_of_lt hlt,
    fun heq => by subst heq; exact hoursList_self sh,
    fun hgt => hoursList_of_gt hgt⟩
  simp only [generateTimeSlots]
  rw [hst, hen]
  exact congrArg (List.flatMap dates) (funext fun date => genLoop_eq_map _ 0 eh 0 sh)

theorem claim_C9_generateTimeSlots_witness :
    (generateTimeSlots [885972] ⟨9, 0, "AM"⟩ ⟨5, 0, "PM"⟩ 0 =
      [885972].flatMap fun date =>
        (hoursList 0 17 0 9).map fun h =>
          serializeTime (zonedToUTC 0 (date : Int) h) true) ∧
    (9 < 17 → hoursList 0 17 0 9 = List.range' 9 (17 - 9)) ∧
    (9 = 17 → hoursList 0 17 0 9 = [9]) ∧
    (17 < 9 → hoursList 0 17 0 9 = []) :=
  claim_C9_generateTimeSlots [885972] ⟨9, 0, "AM"⟩ ⟨5, 0, "PM"⟩ 0 9 17
    (by rfl) (by rfl)

/-- Claim C10: in biweekly mode, for the selected weekday and each hour of
the window, the generated tokens are the 6 specific-date serializations at
day offsets 0, 2, 4, 6, 8 and 10 days (not 14-day intervals) from the
computed first occurrence `targetDayInt`, accumulated through the
string-deduplicating push before being sent to the event store, and the
resulting list has no duplicate tokens. -/
theorem claim_C10_biweekly_offsets (off : Int) (today d : Nat) (st en : TimeStr) :
    (handleGenerateRecurring .biweekly off today [d] st en =
      ((hoursList (parseTime st).2 (parseTime en).1 (parseTime en).2
          (parseTime st).1).flatMap fun h =>
        ([0, 2, 4, 6, 8, 10] : List Nat).map fun woff : Nat =>
          serializeTime (zonedToUTC off (targetDayInt today d + woff) h) true).foldl
        pushUnique []) ∧
    (handleGenerateRecurring .biweekly off today [d] st en).Nodup := by
  have key : handleGenerateRecurring .biweekly off today [d] st en =
      ((hoursList (parseTime st).2 (parseTime en).1 (parseTime en).2
          (parseTime st).1).flatMap fun h =>
        ([0, 2, 4, 6, 8, 10] : List Nat).map fun woff : Nat =>
          serializeTime (zonedToUTC off (targetDayInt today d + woff) h) true).foldl
        pushUnique [] := by
    simp only [handleGenerateRecurring, List.foldl_cons, List.foldl_nil]
    rw [recLoop_eq_foldl]
    rw [← foldl_foldl_flatMap pushUnique
      (fun h => ([0, 2, 4, 6, 8, 10] : List Nat).map fun woff : Nat =>
        serializeTime (zonedToUTC off (targetDayInt today d + woff) h) true)]
    congr 1
  exact ⟨key, key ▸ foldl_pushUnique_nodup _ List.nodup_nil⟩

end HappyCal
